import Mathlib

/-!
Verification of the simple filesystem abstraction (`src/mod.ts`).

The development shallowly embeds the library's `Path` value type (its
constructors, parser `parsePath`, rendering `toString`, composition
`concat`, and comparison methods), the in-memory tree engine
(`MemoryDirectory.resolveAbsolutePath` and the mode-governed mutating
operations) and the `MemoryFs` facade (`cd` and the path application via
the current working directory).

JavaScript values are embedded as follows: strings stay `String`, arrays
become `List`, `Uint8Array` becomes `List Nat`, a JS `Map` becomes an
association list in insertion order (`Map.get` returns the binding of the
key, `Map.set` overwrites in place or appends, `Map.delete` removes the
binding), thrown exceptions become `Except` errors, and in-place mutation
becomes explicit state passing (an operation returns the updated tree;
an error leaves the caller holding the unchanged tree).
-/

namespace SimpleFs

/-- All error kinds of the library collected in one type: the parse errors
of `ParseSimpleFsPathError`, the concat errors of `ConcatPathError`, and
the `MemoryFsError` kinds of the tree engine. -/
inductive FsError where
  | emptyPathString
  | emptyComponent
  | rootOverflow
  | absoluteAppend
  | rootOverflowOnConcat
  | noSuchFile
  | expectedDirectoryGotData
  | alreadyExists
  | cannotRemoveRoot
  | cannotOperateOnRoot
deriving Repr, DecidableEq

/-- The `Mode` union type: conflict-resolution policy of the mutating
operations. -/
inductive Mode where
  | timid
  | placid
  | assertive
deriving Repr, DecidableEq

/-- The `Path` class: `relativity` is `-1` for absolute paths and the
number of leading `..` steps for relative paths; here the two relativity
classes are the two constructors, so the invariants `relativity ≥ -1` and
`parentSteps ≥ 0` hold by construction (mirroring the checks in
`Path.relative` and the private constructor). -/
inductive Path where
  | absolute (components : List String)
  | relative (components : List String) (parentSteps : Nat)
deriving Repr, DecidableEq

/-- `Path.isAbsolute`. -/
def Path.isAbsolute : Path → Bool
  | .absolute _ => true
  | .relative _ _ => false

/-- The private `relativity` field: `-1` for absolute paths, the
parent-step count for relative paths. -/
def Path.relativity : Path → Int
  | .absolute _ => -1
  | .relative _ n => (n : Int)

/-- `Path.getParentSteps`: zero for absolute paths. -/
def Path.getParentSteps : Path → Nat
  | .absolute _ => 0
  | .relative _ n => n

/-- `Path.getComponents` (the components array, leading `..` steps
excluded). -/
def Path.components : Path → List String
  | .absolute cs => cs
  | .relative cs _ => cs

/-- `Path.isComponent`: a valid component contains no `/` and is none of
`""`, `"."`, `".."` (JS `s.includes("/")` is membership of the character
in the string's character list). -/
def Path.isComponent (s : String) : Bool :=
  !(s.data.contains '/') && !(s == "") && !(s == ".") && !(s == "..")

/-- All components of a path are valid, as the private `Path` constructor
enforces for every path that is actually constructed. -/
def Path.validB (p : Path) : Bool :=
  p.components.all Path.isComponent

/-- `Pathish`: either a proper `Path` or a raw string. -/
inductive Pathish where
  | path (p : Path)
  | str (s : String)

/-- The loop body state of `parsePath`: the parts produced by
`str.split("/")` are processed one at a time, tracking `parentSteps`, the
accumulated `components`, and the `isFirstEmptyComponent` flag. -/
def parseParts (isAbsolute : Bool) :
    List String → Nat → List String → Bool → Except FsError (Nat × List String)
  | [], steps, comps, _ => .ok (steps, comps)
  | part :: rest, steps, comps, isFirstEmpty =>
    if part = "" then
      if isFirstEmpty && isAbsolute then parseParts isAbsolute rest steps comps false
      else .error .emptyComponent
    else if part = "." then
      parseParts isAbsolute rest steps comps isFirstEmpty
    else if part = ".." then
      if comps.length = 0 then
        if isAbsolute then .error .rootOverflow
        else parseParts isAbsolute rest (steps + 1) comps isFirstEmpty
      else parseParts isAbsolute rest steps comps.dropLast isFirstEmpty
    else parseParts isAbsolute rest steps (comps ++ [part]) isFirstEmpty

/-- JS `str.split("/")` on the character list: splits at every `/`,
keeping empty parts (also leading and trailing ones). -/
def splitSlashAux : List Char → List Char → List String
  | [], acc => [acc.reverse.asString]
  | c :: rest, acc =>
    if c = '/' then acc.reverse.asString :: splitSlashAux rest []
    else splitSlashAux rest (c :: acc)

/-- JS `str.split("/")`. -/
def splitSlash (s : String) : List String :=
  splitSlashAux s.data []

/-- JS `str.startsWith("/")`: whether the first character is `/`. -/
def startsWithSlash (s : String) : Bool :=
  match s.data with
  | c :: _ => c = '/'
  | [] => false

/-- `parsePath`: parses a string into a `Path`, throwing
`ParseSimpleFsPathError`s (here: the parse constructors of `FsError`). -/
def parsePath (s : String) : Except FsError Path :=
  if s.length = 0 then .error .emptyPathString
  else if s = "/" then .ok (.absolute [])
  else
    let isAbsolute := startsWithSlash s
    match parseParts isAbsolute (splitSlash s) 0 [] true with
    | .error e => .error e
    | .ok (steps, comps) =>
      .ok (if isAbsolute then .absolute comps else .relative comps steps)

/-- `Path.fromPathish`: strings run through the full parser. -/
def Path.fromPathish : Pathish → Except FsError Path
  | .path p => .ok p
  | .str s => parsePath s

/-- The loop of `Path.concat` over the appended path's leading `..`
count: each step pops a trailing component if any remain, otherwise
increments the accumulated relativity. -/
def concatSteps : List String → Int → Nat → List String × Int
  | comps, rel, 0 => (comps, rel)
  | comps, rel, n + 1 =>
    if 0 < comps.length then concatSteps comps.dropLast rel n
    else concatSteps comps (rel + 1) n

/-- The core of `Path.concat` on two proper paths (after `fromPathish`):
fails on an absolute appendee, walks the appendee's `..` steps, checks
the final relativity of an absolute base, then appends the remaining
components. -/
def Path.concatPath (self other : Path) : Except FsError Path :=
  if other.isAbsolute then .error .absoluteAppend
  else
    let sr := concatSteps self.components self.relativity other.getParentSteps
    if self.isAbsolute = true ∧ sr.2 > -1 then .error .rootOverflowOnConcat
    else
      match self with
      | .absolute _ => .ok (.absolute (sr.1 ++ other.components))
      | .relative _ _ => .ok (.relative (sr.1 ++ other.components) sr.2.toNat)

/-- `Path.concat` with a `Pathish` argument (converts via
`fromPathish` first, so a string argument is parsed and a parse failure
is thrown). -/
def Path.concat (self : Path) (other : Pathish) : Except FsError Path := do
  let o ← Path.fromPathish other
  self.concatPath o

/-- `Path.equals` with a `Pathish` argument: same relativity and
identical component sequence. -/
def Path.equals (self : Path) (other : Pathish) : Except FsError Bool := do
  let o ← Path.fromPathish other
  match self, o with
  | .absolute c1, .absolute c2 => pure (c1 == c2)
  | .relative c1 n1, .relative c2 n2 => pure (n1 == n2 && c1 == c2)
  | _, _ => pure false

/-- `Path.prefixes` with a `Pathish` argument: same relativity and the
component sequence is a literal prefix. -/
def Path.prefixes (self : Path) (other : Pathish) : Except FsError Bool := do
  let o ← Path.fromPathish other
  match self, o with
  | .absolute c1, .absolute c2 => pure (c1.isPrefixOf c2)
  | .relative c1 n1, .relative c2 n2 => pure (n1 == n2 && c1.isPrefixOf c2)
  | _, _ => pure false

/-- The loop of `Path.toString` appending `"/.."` a given number of
times. -/
def appendDotDots : String → Nat → String
  | r, 0 => r
  | r, n + 1 => appendDotDots (r ++ "/..") n

/-- `Path.toString`: absolute root renders `"/"`, an absolute path
renders `/c1/c2/...`, the empty relative path renders `"."`, and a
relative path renders its `..` block followed by its components joined
with `/`. -/
def Path.toString : Path → String
  | .absolute comps =>
    if comps.length = 0 then "/"
    else comps.foldl (fun r c => r ++ "/" ++ c) ""
  | .relative comps steps =>
    if comps.length = 0 ∧ steps = 0 then "."
    else
      let r1 := if steps = 0 then "" else appendDotDots ".." (steps - 1)
      match comps with
      | [] => r1
      | c :: cs =>
        let r2 := if 0 < steps then r1 ++ "/" else r1
        cs.foldl (fun acc x => acc ++ "/" ++ x) (r2 ++ c)

/-- A tree entry: a `MemoryDirectory` (its `contents` map, an association
list in insertion order with unique keys) or a data file (`Uint8Array`
embedded as a list of byte values). -/
inductive Entry where
  | dir (contents : List (String × Entry))
  | data (bytes : List Nat)
deriving Repr

/-- The contents map of a `MemoryDirectory`. -/
abbrev Dir := List (String × Entry)

/-- JS `Map.get`: the value bound to the key, if any. -/
def mapGet : Dir → String → Option Entry
  | [], _ => none
  | (k, v) :: rest, key => if k = key then some v else mapGet rest key

/-- JS `Map.set`: overwrite the binding in place, or append a new one. -/
def mapSet : Dir → String → Entry → Dir
  | [], key, e => [(key, e)]
  | (k, v) :: rest, key, e =>
    if k = key then (key, e) :: rest else (k, v) :: mapSet rest key e

/-- JS `Map.delete`: remove the binding of the key. -/
def mapDelete : Dir → String → Dir
  | [], _ => []
  | (k, v) :: rest, key => if k = key then rest else (k, v) :: mapDelete rest key

/-- The result union of `resolveAbsolutePath`:
`MemoryDirectory | Uint8Array | "nothing"`. -/
inductive ResolveRes where
  | dirRes (contents : Dir)
  | dataRes (bytes : List Nat)
  | nothingRes
deriving Repr

/-- `MemoryDirectory.resolveAbsolutePath` on the component list (the
source walks `getIthComponent(0)` / `popFront`, ignoring relativity).
The second component of the result is the directory's contents after the
walk, which differs from the input only when `createParentDirs` is true
and empty parent directories were materialized. -/
def resolveComps (contents : Dir) (comps : List String) (createParentDirs : Bool) :
    Except FsError (ResolveRes × Dir) :=
  match comps with
  | [] => .ok (.dirRes contents, contents)
  | c :: rest =>
    match mapGet contents c with
    | none =>
      if createParentDirs then
        match rest with
        | [] => .ok (.nothingRes, contents)
        | _ :: _ =>
          match resolveComps [] rest createParentDirs with
          | .error e => .error e
          | .ok (res, sub) => .ok (res, mapSet contents c (.dir sub))
      else
        match rest with
        | [] => .ok (.nothingRes, contents)
        | _ :: _ => .error .noSuchFile
    | some (.dir d) =>
      match rest with
      | [] => .ok (.dirRes d, contents)
      | _ :: _ =>
        match resolveComps d rest createParentDirs with
        | .error e => .error e
        | .ok (res, d2) => .ok (res, mapSet contents c (.dir d2))
    | some (.data b) =>
      match rest with
      | [] => .ok (.dataRes b, contents)
      | _ :: _ => .error .expectedDirectoryGotData

/-- `MemoryDirectory.resolveAbsolutePath` with its `Pathish` argument
(converted through `fromPathish`, as in the source). -/
def MemoryDirectory.resolveAbsolutePath (contents : Dir) (path : Pathish)
    (createParentDirs : Bool) : Except FsError (ResolveRes × Dir) := do
  let p ← Path.fromPathish path
  resolveComps contents p.components createParentDirs

/-- Resolution without parent creation, classified as the entry found at
the path (`none` for the `"nothing"` result). Used by the mutating
operations below for their source/occupancy checks; the theorem
`resolveEntry_eq` below identifies it with `resolveComps` without parent
creation. -/
def resolveEntry : Dir → List String → Except FsError (Option Entry)
  | contents, [] => .ok (some (.dir contents))
  | contents, c :: rest =>
    match mapGet contents c, rest with
    | none, [] => .ok none
    | none, _ :: _ => .error .noSuchFile
    | some e, [] => .ok (some e)
    | some (.dir d), _ :: _ => resolveEntry d rest
    | some (.data _), _ :: _ => .error .expectedDirectoryGotData

/-- Modelled from the spec: the bodies of `MemoryFs.writeSync`,
`mkdirSync` and `copySync` are missing from `src/mod.ts` (the methods
throw "Method not implemented"), so their common engine is modelled from
spec section 4.2: resolve the parent with `createParentDirs = true`
(materializing missing intermediate directories, raising
`ExpectedDirectoryGotData` on a data file in the middle before any
mode-driven check), then place the entry at the final component under
the occupancy policy — `Timid` fails with `AlreadyExists`, `Placid`
leaves the tree unchanged, `Assertive` overwrites whatever was there.
An empty component list targets the root, which is protected. -/
def placeAt (contents : Dir) (comps : List String) (e : Entry) (mode : Mode) :
    Except FsError Dir :=
  match comps with
  | [] => .error .cannotOperateOnRoot
  | [name] =>
    match mapGet contents name with
    | none => .ok (mapSet contents name e)
    | some _ =>
      match mode with
      | .timid => .error .alreadyExists
      | .placid => .ok contents
      | .assertive => .ok (mapSet contents name e)
  | c :: rest =>
    match mapGet contents c with
    | none =>
      match placeAt [] rest e mode with
      | .error err => .error err
      | .ok sub => .ok (mapSet contents c (.dir sub))
    | some (.dir d) =>
      match placeAt d rest e mode with
      | .error err => .error err
      | .ok d2 => .ok (mapSet contents c (.dir d2))
    | some (.data _) => .error .expectedDirectoryGotData

/-- Modelled from the spec: `MemoryFs.writeSync` (missing from
`src/mod.ts`) places a fresh data entry with the given bytes. -/
def writeAt (contents : Dir) (comps : List String) (bytes : List Nat) (mode : Mode) :
    Except FsError Dir :=
  placeAt contents comps (.data bytes) mode

/-- Modelled from the spec: `MemoryFs.mkdirSync` (missing from
`src/mod.ts`) places a fresh empty directory. -/
def mkdirAt (contents : Dir) (comps : List String) (mode : Mode) :
    Except FsError Dir :=
  placeAt contents comps (.dir []) mode

/-- Modelled from the spec: `MemoryFs.removeSync` (missing from
`src/mod.ts`) resolves without creating parents (missing intermediate →
`NoSuchFile`, data in the middle → `ExpectedDirectoryGotData`), requires
an existing entry at the final component (else `NoSuchFile`) and deletes
it from its parent's mapping; removing the root is always rejected. -/
def removeAt (contents : Dir) (comps : List String) : Except FsError Dir :=
  match comps with
  | [] => .error .cannotRemoveRoot
  | [name] =>
    match mapGet contents name with
    | none => .error .noSuchFile
    | some _ => .ok (mapDelete contents name)
  | c :: rest =>
    match mapGet contents c with
    | none => .error .noSuchFile
    | some (.dir d) =>
      match removeAt d rest with
      | .error err => .error err
      | .ok d2 => .ok (mapSet contents c (.dir d2))
    | some (.data _) => .error .expectedDirectoryGotData

/-- Modelled from the spec: `MemoryFs.copySync` (missing from
`src/mod.ts`) requires `src` to resolve to an existing entry (fail
`NoSuchFile` otherwise) and places a deep clone of it at `dst` under the
same occupancy policy as `write`/`mkdir` (in this value semantics the
clone is the entry value itself). -/
def copyAt (contents : Dir) (src dst : List String) (mode : Mode) :
    Except FsError Dir :=
  match resolveEntry contents src with
  | .error e => .error e
  | .ok none => .error .noSuchFile
  | .ok (some e) => placeAt contents dst e mode

/-- Modelled from the spec: `MemoryFs.moveSync` (missing from
`src/mod.ts`) is `copy` followed by `remove(src)` (spec section 4.2's
primary definition, with the mode applying to `dst` as the method's doc
comment in `src/mod.ts` states); the repository's test suite pins this
composition down, including that a `Placid` move onto an occupied
destination still removes the source. An error leaves the caller's tree
unchanged. -/
def moveAt (contents : Dir) (src dst : List String) (mode : Mode) :
    Except FsError Dir :=
  match copyAt contents src dst mode with
  | .error e => .error e
  | .ok r1 => removeAt r1 src

/-- Deep structural equality of entries, the algorithm of `fileEq` in
`src/mod.ts` interpreted on the tree: data entries compare byte-for-byte,
directories compare by equal size and, for every child name of the first,
a recursively equal child of the second. -/
def entryEq : Entry → Entry → Bool
  | .data b1, .data b2 => b1 == b2
  | .dir d1, .dir d2 => d1.length == d2.length && dirAllEq d1 d2
  | _, _ => false
where
  /-- Every binding of the first list has a deeply equal binding in the
  second. -/
  dirAllEq : List (String × Entry) → List (String × Entry) → Bool
  | [], _ => true
  | (k, v) :: rest, d2 =>
    (match mapGet d2 k with
     | some v2 => entryEq v v2
     | none => false) && dirAllEq rest d2

/-- Deep equality of two directory trees (`fileEq` from the roots). -/
def dirEq (d1 d2 : Dir) : Bool :=
  entryEq (.dir d1) (.dir d2)

/-- `MemoryFs`: a root directory and a current working path (always
absolute). -/
structure MemoryFs where
  root : Dir
  workingDirectory : Path

/-- How every `MemoryFs` operation applies its path argument: parse a
string argument, then take the path itself if absolute, else the working
directory concatenated with it. -/
def MemoryFs.target (fs : MemoryFs) (path : Pathish) : Except FsError Path := do
  let p ← Path.fromPathish path
  if p.isAbsolute then pure p else fs.workingDirectory.concatPath p

/-- `MemoryFs.cd`: compute the target, resolve it without creating
parents, require a directory, and commit the new working path only on
success (an error returns no new state, so the caller's working path is
unchanged). -/
def MemoryFs.cd (fs : MemoryFs) (path : Pathish) : Except FsError MemoryFs := do
  let target ← fs.target path
  match resolveComps fs.root target.components false with
  | .error e => .error e
  | .ok (.nothingRes, _) => .error .noSuchFile
  | .ok (.dataRes _, _) => .error .expectedDirectoryGotData
  | .ok (.dirRes _, _) => .ok { fs with workingDirectory := target }

/-- Modelled from the spec: `MemoryFs.writeSync` at the facade level. -/
def MemoryFs.writeSync (fs : MemoryFs) (path : Pathish) (bytes : List Nat)
    (mode : Mode) : Except FsError MemoryFs := do
  let t ← fs.target path
  let root2 ← writeAt fs.root t.components bytes mode
  pure { fs with root := root2 }

/-- Modelled from the spec: `MemoryFs.mkdirSync` at the facade level. -/
def MemoryFs.mkdirSync (fs : MemoryFs) (path : Pathish) (mode : Mode) :
    Except FsError MemoryFs := do
  let t ← fs.target path
  let root2 ← mkdirAt fs.root t.components mode
  pure { fs with root := root2 }

/-- Modelled from the spec: `MemoryFs.removeSync` at the facade level. -/
def MemoryFs.removeSync (fs : MemoryFs) (path : Pathish) :
    Except FsError MemoryFs := do
  let t ← fs.target path
  let root2 ← removeAt fs.root t.components
  pure { fs with root := root2 }

/-- Modelled from the spec: `MemoryFs.copySync` at the facade level. -/
def MemoryFs.copySync (fs : MemoryFs) (src dst : Pathish) (mode : Mode) :
    Except FsError MemoryFs := do
  let s ← fs.target src
  let d ← fs.target dst
  let root2 ← copyAt fs.root s.components d.components mode
  pure { fs with root := root2 }

/-- Modelled from the spec: `MemoryFs.moveSync` at the facade level. -/
def MemoryFs.moveSync (fs : MemoryFs) (src dst : Pathish) (mode : Mode) :
    Except FsError MemoryFs := do
  let s ← fs.target src
  let d ← fs.target dst
  let root2 ← moveAt fs.root s.components d.components mode
  pure { fs with root := root2 }

/-! ### Helper lemmas -/

theorem resolveAbsolutePath_path (d : Dir) (p : Path) (b : Bool) :
    MemoryDirectory.resolveAbsolutePath d (.path p) b = resolveComps d p.components b := rfl

theorem exceptBind_error {α β : Type} (e : FsError) (f : α → Except FsError β) :
    (Except.error e >>= f) = Except.error e := rfl

theorem exceptBind_ok {α β : Type} (a : α) (f : α → Except FsError β) :
    (Except.ok a >>= f) = f a := rfl

theorem exceptMapF_error {α β : Type} (f : α → β) (e : FsError) :
    (f <$> (Except.error e : Except FsError α)) = Except.error e := rfl

theorem exceptMapF_ok {α β : Type} (f : α → β) (a : α) :
    (f <$> (Except.ok a : Except FsError α)) = Except.ok (f a) := rfl

theorem exceptPure {α : Type} (a : α) :
    (pure a : Except FsError α) = Except.ok a := rfl

theorem mapSet_get_self {d : Dir} {k : String} {v : Entry} (h : mapGet d k = some v) :
    mapSet d k v = d := by
  induction d with
  | nil => simp [mapGet] at h
  | cons hd tl ih =>
    obtain ⟨k0, v0⟩ := hd
    by_cases hk : k0 = k
    · subst hk
      simp [mapGet] at h
      simp [mapSet, h]
    · simp [mapGet, hk] at h
      simp [mapSet, hk, ih h]

theorem resolveEntry_eq (comps : List String) : ∀ (contents : Dir),
    resolveEntry contents comps
      = match resolveComps contents comps false with
        | .error e => .error e
        | .ok (.dirRes d, _) => .ok (some (.dir d))
        | .ok (.dataRes b, _) => .ok (some (.data b))
        | .ok (.nothingRes, _) => .ok none := by
  induction comps with
  | nil => intro contents; rfl
  | cons c rest ih =>
    intro contents
    cases hget : mapGet contents c with
    | none => cases rest <;> simp [resolveEntry, resolveComps, hget]
    | some e =>
      cases e with
      | data bs => cases rest <;> simp [resolveEntry, resolveComps, hget]
      | dir d =>
        cases rest with
        | nil => simp [resolveEntry, resolveComps, hget]
        | cons c2 r2 =>
          have hstep : resolveComps contents (c :: c2 :: r2) false
              = match mapGet contents c with
                | none => .error .noSuchFile
                | some (.dir dd) =>
                  match resolveComps dd (c2 :: r2) false with
                  | .error e => .error e
                  | .ok (res, d2) => .ok (res, mapSet contents c (.dir d2))
                | some (.data _) => .error .expectedDirectoryGotData := rfl
          rw [show resolveEntry contents (c :: c2 :: r2) = resolveEntry d (c2 :: r2) by
            simp [resolveEntry, hget]]
          rw [ih d, hstep, hget]
          cases hrec : resolveComps d (c2 :: r2) false with
          | error e2 => simp [hrec]
          | ok rs => obtain ⟨res, d2⟩ := rs; cases res <;> simp [hrec]

theorem placid_placeAt_occupied :
    ∀ (comps : List String) (root : Dir) (e0 eNew : Entry),
      comps ≠ [] → resolveEntry root comps = .ok (some e0) →
      placeAt root comps eNew .placid = .ok root := by
  intro comps
  induction comps with
  | nil => intro root e0 eNew hne; exact absurd rfl hne
  | cons c rest ih =>
    intro root e0 eNew _ hres
    cases rest with
    | nil =>
      cases hget : mapGet root c with
      | none => simp [resolveEntry, hget] at hres
      | some e => cases e <;> simp [placeAt, hget]
    | cons c2 rest2 =>
      cases hget : mapGet root c with
      | none => simp [resolveEntry, hget] at hres
      | some e =>
        cases e with
        | data bs => simp [resolveEntry, hget] at hres
        | dir d =>
          have hsub : resolveEntry d (c2 :: rest2) = .ok (some e0) := by
            simpa [resolveEntry, hget] using hres
          have hplace := ih d e0 eNew (by simp) hsub
          simp [placeAt, hget, hplace, mapSet_get_self hget]

theorem moveAt_dst_root (root : Dir) (src : List String) (mode : Mode) :
    ∃ e, moveAt root src [] mode = .error e := by
  cases hres : resolveEntry root src with
  | error e => exact ⟨e, by simp [moveAt, copyAt, hres]⟩
  | ok o =>
    cases o with
    | none => exact ⟨.noSuchFile, by simp [moveAt, copyAt, hres]⟩
    | some e => exact ⟨.cannotOperateOnRoot, by simp [moveAt, copyAt, hres, placeAt]⟩

theorem moveAt_src_root (root : Dir) (dst : List String) (mode : Mode) :
    ∃ e, moveAt root [] dst mode = .error e := by
  have hres : resolveEntry root [] = .ok (some (.dir root)) := rfl
  cases hplace : placeAt root dst (.dir root) mode with
  | error e => exact ⟨e, by simp [moveAt, copyAt, hres, hplace]⟩
  | ok r1 => exact ⟨.cannotRemoveRoot, by simp [moveAt, copyAt, hres, hplace, removeAt]⟩

theorem concatSteps_zero (l : List String) (r : Int) : concatSteps l r 0 = (l, r) := rfl

theorem concatSteps_cons_pos (l : List String) (r : Int) (n : Nat) (h : l ≠ []) :
    concatSteps l r (n + 1) = concatSteps l.dropLast r n := by
  rw [show concatSteps l r (n + 1)
      = if 0 < l.length then concatSteps l.dropLast r n
        else concatSteps l (r + 1) n from rfl]
  rw [if_pos (List.length_pos.mpr h)]

theorem concatSteps_nil_succ (r : Int) (n : Nat) :
    concatSteps [] r (n + 1) = concatSteps [] (r + 1) n := rfl

theorem concatSteps_closed (n : Nat) : ∀ (l : List String) (r : Int),
    concatSteps l r n = (l.take (l.length - n), r + ((n - l.length : Nat) : Int)) := by
  induction n with
  | zero => intro l r; simp [concatSteps_zero]
  | succ n ih =>
    intro l r
    cases l with
    | nil =>
      rw [concatSteps_nil_succ, ih]
      simp only [List.take_nil, List.length_nil, Prod.mk.injEq, true_and]
      omega
    | cons a as =>
      rw [concatSteps_cons_pos _ _ _ (by simp), ih]
      simp only [Prod.mk.injEq]
      constructor
      · simp only [List.length_dropLast, List.length_cons, Nat.add_sub_cancel]
        rw [List.dropLast_eq_take, List.take_take]
        congr 1
        simp only [List.length_cons, Nat.add_sub_cancel]
        omega
      · simp only [List.length_dropLast, List.length_cons, Nat.add_sub_cancel]
        omega

theorem concatPath_absolute_other (a : Path) (k : List String) :
    a.concatPath (.absolute k) = .error .absoluteAppend := by
  simp [Path.concatPath, Path.isAbsolute]

theorem concatPath_rel_rel (l k : List String) (n m : Nat) :
    Path.concatPath (.relative l n) (.relative k m)
      = .ok (.relative (l.take (l.length - m) ++ k) (n + (m - l.length))) := by
  simp [Path.concatPath, Path.isAbsolute, Path.relativity, Path.components,
    Path.getParentSteps, concatSteps_closed]
  omega

theorem concatPath_abs_rel_ok (l k : List String) (m : Nat) (h : m ≤ l.length) :
    Path.concatPath (.absolute l) (.relative k m)
      = .ok (.absolute (l.take (l.length - m) ++ k)) := by
  have hc : (m - l.length : Nat) = 0 := by omega
  simp [Path.concatPath, Path.isAbsolute, Path.relativity, Path.components,
    Path.getParentSteps, concatSteps_closed, hc]

theorem concatPath_abs_rel_err (l k : List String) (m : Nat) (h : l.length < m) :
    Path.concatPath (.absolute l) (.relative k m) = .error .rootOverflowOnConcat := by
  have hgt : (-1 : Int) + ((m - l.length : Nat) : Int) > -1 := by
    have h0 : 0 < (m - l.length : Nat) := by omega
    omega
  simp [Path.concatPath, Path.isAbsolute, Path.relativity, Path.components,
    Path.getParentSteps, concatSteps_closed, hgt]

theorem take_append_chain (T k : List String) (p : Nat) :
    (T ++ k).take ((T ++ k).length - p)
      = T.take (T.length - (p - k.length)) ++ k.take (k.length - p) := by
  rw [List.length_append, List.take_append_eq_append_take]
  congr 1
  · by_cases hp : p ≤ k.length
    · have h1 : T.length - (p - k.length) = T.length := by omega
      have h2 : T.length ≤ T.length + k.length - p := by omega
      rw [h1, List.take_length, List.take_of_length_le h2]
    · congr 1
      omega
  · congr 1
    omega

theorem concat_comps_assoc (ka kb kc : List String) (mb mc : Nat) :
    (ka.take (ka.length - mb) ++ kb).take
        ((ka.take (ka.length - mb) ++ kb).length - mc) ++ kc
      = ka.take (ka.length - (mb + (mc - kb.length)))
          ++ (kb.take (kb.length - mc) ++ kc) := by
  have hTlen : (ka.take (ka.length - mb)).length = ka.length - mb := by
    rw [List.length_take]
    omega
  rw [take_append_chain, hTlen, List.take_take, List.append_assoc]
  rw [show min (ka.length - mb - (mc - kb.length)) (ka.length - mb)
      = ka.length - (mb + (mc - kb.length)) by omega]

/-! ### Claim theorems -/

/-- C1: the resolution primitive `resolveAbsolutePath(path, createParentDirs)`,
for every directory tree and every absolute path: a path with zero real
components resolves to the current directory itself; a first component
missing from the current mapping returns the `"nothing"` sentinel when it
is the last component, and otherwise materializes an empty directory and
recurses when `createParentDirs` is true, or fails with `NoSuchFile` when
it is false; a first component found as data fails with
`ExpectedDirectoryGotData` when more components remain; a first component
found as a directory is returned when last and recursed into otherwise. -/
theorem C1_resolve_cases :
    (∀ (d : Dir) (b : Bool),
        MemoryDirectory.resolveAbsolutePath d (.path (.absolute [])) b = .ok (.dirRes d, d))
  ∧ (∀ (d : Dir) (c : String) (b : Bool), mapGet d c = none →
        MemoryDirectory.resolveAbsolutePath d (.path (.absolute [c])) b = .ok (.nothingRes, d))
  ∧ (∀ (d : Dir) (c : String) (rest : List String), rest ≠ [] → mapGet d c = none →
        MemoryDirectory.resolveAbsolutePath d (.path (.absolute (c :: rest))) true
          = (resolveComps [] rest true).map (fun rs => (rs.1, mapSet d c (.dir rs.2))))
  ∧ (∀ (d : Dir) (c : String) (rest : List String), rest ≠ [] → mapGet d c = none →
        MemoryDirectory.resolveAbsolutePath d (.path (.absolute (c :: rest))) false
          = .error .noSuchFile)
  ∧ (∀ (d : Dir) (c : String) (bs : List Nat) (rest : List String) (b : Bool),
        rest ≠ [] → mapGet d c = some (.data bs) →
        MemoryDirectory.resolveAbsolutePath d (.path (.absolute (c :: rest))) b
          = .error .expectedDirectoryGotData)
  ∧ (∀ (d sub : Dir) (c : String) (b : Bool), mapGet d c = some (.dir sub) →
        MemoryDirectory.resolveAbsolutePath d (.path (.absolute [c])) b
          = .ok (.dirRes sub, d))
  ∧ (∀ (d sub : Dir) (c : String) (rest : List String) (b : Bool),
        rest ≠ [] → mapGet d c = some (.dir sub) →
        MemoryDirectory.resolveAbsolutePath d (.path (.absolute (c :: rest))) b
          = (resolveComps sub rest b).map (fun rs => (rs.1, mapSet d c (.dir rs.2)))) := by
  refine ⟨fun d b => rfl, fun d c b h => ?_, fun d c rest hne h => ?_,
      fun d c rest hne h => ?_, fun d c bs rest b hne h => ?_,
      fun d sub c b h => ?_, fun d sub c rest b hne h => ?_⟩
  · cases b <;> simp [resolveAbsolutePath_path, Path.components, resolveComps, h]
  · cases rest with
    | nil => exact absurd rfl hne
    | cons c2 r2 =>
      have hstep : resolveComps d (c :: c2 :: r2) true
          = match mapGet d c with
            | none =>
              match resolveComps [] (c2 :: r2) true with
              | .error e => .error e
              | .ok (res, sub) => .ok (res, mapSet d c (.dir sub))
            | some (.dir dd) =>
              match resolveComps dd (c2 :: r2) true with
              | .error e => .error e
              | .ok (res, d2) => .ok (res, mapSet d c (.dir d2))
            | some (.data _) => .error .expectedDirectoryGotData := rfl
      rw [resolveAbsolutePath_path]
      simp only [Path.components]
      rw [hstep, h]
      cases hrec : resolveComps [] (c2 :: r2) true with
      | error e => simp [hrec, Except.map]
      | ok rs => simp [hrec, Except.map]
  · cases rest with
    | nil => exact absurd rfl hne
    | cons c2 r2 => simp [resolveAbsolutePath_path, Path.components, resolveComps, h]
  · cases rest with
    | nil => exact absurd rfl hne
    | cons c2 r2 =>
      cases b <;> simp [resolveAbsolutePath_path, Path.components, resolveComps, h]
  · cases b <;> simp [resolveAbsolutePath_path, Path.components, resolveComps, h]
  · cases rest with
    | nil => exact absurd rfl hne
    | cons c2 r2 =>
      cases b with
      | false =>
        have hstep : resolveComps d (c :: c2 :: r2) false
            = match mapGet d c with
              | none => .error .noSuchFile
              | some (.dir dd) =>
                match resolveComps dd (c2 :: r2) false with
                | .error e => .error e
                | .ok (res, d2) => .ok (res, mapSet d c (.dir d2))
              | some (.data _) => .error .expectedDirectoryGotData := rfl
        rw [resolveAbsolutePath_path]
        simp only [Path.components]
        rw [hstep, h]
        cases hrec : resolveComps sub (c2 :: r2) false with
        | error e => simp [hrec, Except.map]
        | ok rs => simp [hrec, Except.map]
      | true =>
        have hstep : resolveComps d (c :: c2 :: r2) true
            = match mapGet d c with
              | none =>
                match resolveComps [] (c2 :: r2) true with
                | .error e => .error e
                | .ok (res, sub) => .ok (res, mapSet d c (.dir sub))
              | some (.dir dd) =>
                match resolveComps dd (c2 :: r2) true with
                | .error e => .error e
                | .ok (res, d2) => .ok (res, mapSet d c (.dir d2))
              | some (.data _) => .error .expectedDirectoryGotData := rfl
        rw [resolveAbsolutePath_path]
        simp only [Path.components]
        rw [hstep, h]
        cases hrec : resolveComps sub (c2 :: r2) true with
        | error e => simp [hrec, Except.map]
        | ok rs => simp [hrec, Except.map]

/-- Witness for C1: the seven cases evaluated on the concrete tree
`a ↦ dir (x ↦ data), b ↦ data`. -/
theorem C1_resolve_cases_witness :
    (MemoryDirectory.resolveAbsolutePath
        [("a", .dir [("x", .data [7])]), ("b", .data [9])] (.path (.absolute [])) true
      = .ok (.dirRes [("a", .dir [("x", .data [7])]), ("b", .data [9])],
             [("a", .dir [("x", .data [7])]), ("b", .data [9])]))
  ∧ (MemoryDirectory.resolveAbsolutePath
        [("a", .dir [("x", .data [7])]), ("b", .data [9])] (.path (.absolute ["z"])) true
      = .ok (.nothingRes, [("a", .dir [("x", .data [7])]), ("b", .data [9])]))
  ∧ (MemoryDirectory.resolveAbsolutePath
        [("a", .dir [("x", .data [7])]), ("b", .data [9])] (.path (.absolute ["z", "w"])) true
      = (resolveComps [] ["w"] true).map
          (fun rs => (rs.1, mapSet [("a", .dir [("x", .data [7])]), ("b", .data [9])] "z" (.dir rs.2))))
  ∧ (MemoryDirectory.resolveAbsolutePath
        [("a", .dir [("x", .data [7])]), ("b", .data [9])] (.path (.absolute ["z", "w"])) false
      = .error .noSuchFile)
  ∧ (MemoryDirectory.resolveAbsolutePath
        [("a", .dir [("x", .data [7])]), ("b", .data [9])] (.path (.absolute ["b", "w"])) true
      = .error .expectedDirectoryGotData)
  ∧ (MemoryDirectory.resolveAbsolutePath
        [("a", .dir [("x", .data [7])]), ("b", .data [9])] (.path (.absolute ["a"])) false
      = .ok (.dirRes [("x", .data [7])], [("a", .dir [("x", .data [7])]), ("b", .data [9])]))
  ∧ (MemoryDirectory.resolveAbsolutePath
        [("a", .dir [("x", .data [7])]), ("b", .data [9])] (.path (.absolute ["a", "x"])) false
      = (resolveComps [("x", .data [7])] ["x"] false).map
          (fun rs => (rs.1, mapSet [("a", .dir [("x", .data [7])]), ("b", .data [9])] "a" (.dir rs.2)))) :=
  ⟨C1_resolve_cases.1 _ true,
   C1_resolve_cases.2.1 _ "z" true rfl,
   C1_resolve_cases.2.2.1 _ "z" ["w"] (by simp) rfl,
   C1_resolve_cases.2.2.2.1 _ "z" ["w"] (by simp) rfl,
   C1_resolve_cases.2.2.2.2.1 _ "b" [9] ["w"] true (by simp) rfl,
   C1_resolve_cases.2.2.2.2.2.1 _ _ "a" false rfl,
   C1_resolve_cases.2.2.2.2.2.2 _ _ "a" ["x"] false (by simp) rfl⟩

/-- C2: `write(path, bytes, mode)` creates a data entry at an unoccupied
target; at an occupied target, `Timid` fails with `AlreadyExists` and
`Assertive` replaces whatever was there (directory or data) with a fresh
data entry; missing parent directories are created on demand
(`createParentDirs = true`), so `write("newdir/pancakes", bytes)` against
a tree lacking `newdir` succeeds, creating `newdir` as a fresh directory
containing `pancakes`. -/
theorem C2_write_spec :
    (∀ (d : Dir) (name : String) (bytes : List Nat) (mode : Mode),
        mapGet d name = none →
        writeAt d [name] bytes mode = .ok (mapSet d name (.data bytes)))
  ∧ (∀ (d : Dir) (name : String) (e : Entry) (bytes : List Nat),
        mapGet d name = some e →
        writeAt d [name] bytes .timid = .error .alreadyExists)
  ∧ (∀ (d : Dir) (name : String) (e : Entry) (bytes : List Nat),
        mapGet d name = some e →
        writeAt d [name] bytes .assertive = .ok (mapSet d name (.data bytes)))
  ∧ (∀ (d : Dir) (c : String) (rest : List String) (bytes : List Nat) (mode : Mode),
        rest ≠ [] → mapGet d c = none →
        writeAt d (c :: rest) bytes mode
          = (writeAt [] rest bytes mode).map (fun sub => mapSet d c (.dir sub)))
  ∧ (∀ (root : Dir) (bytes : List Nat) (mode : Mode),
        mapGet root "newdir" = none →
        writeAt root ["newdir", "pancakes"] bytes mode
          = .ok (mapSet root "newdir" (.dir [("pancakes", .data bytes)]))) := by
  refine ⟨fun d name bytes mode h => ?_, fun d name e bytes h => ?_,
      fun d name e bytes h => ?_, fun d c rest bytes mode hne h => ?_,
      fun root bytes mode h => ?_⟩
  · simp [writeAt, placeAt, h]
  · simp [writeAt, placeAt, h]
  · simp [writeAt, placeAt, h]
  · cases rest with
    | nil => exact absurd rfl hne
    | cons c2 r2 =>
      simp only [writeAt, placeAt, h]
      cases hrec : placeAt [] (c2 :: r2) (.data bytes) mode with
      | error e => simp [hrec, Except.map]
      | ok sub => simp [hrec, Except.map]
  · cases mode <;> simp [writeAt, placeAt, h, mapGet, mapSet]

/-- Witness for C2: the five cases evaluated on concrete trees. -/
theorem C2_write_spec_witness :
    (writeAt [("x", .data [1])] ["y"] [5] .timid
      = .ok (mapSet [("x", .data [1])] "y" (.data [5])))
  ∧ (writeAt [("x", .data [1])] ["x"] [5] .timid = .error .alreadyExists)
  ∧ (writeAt [("x", .data [1])] ["x"] [5] .assertive
      = .ok (mapSet [("x", .data [1])] "x" (.data [5])))
  ∧ (writeAt [("x", .data [1])] ["a", "b"] [5] .timid
      = (writeAt [] ["b"] [5] .timid).map (fun sub => mapSet [("x", .data [1])] "a" (.dir sub)))
  ∧ (writeAt [("x", .data [1])] ["newdir", "pancakes"] [5] .timid
      = .ok (mapSet [("x", .data [1])] "newdir" (.dir [("pancakes", .data [5])]))) :=
  ⟨C2_write_spec.1 _ "y" [5] .timid rfl,
   C2_write_spec.2.1 _ "x" (.data [1]) [5] rfl,
   C2_write_spec.2.2.1 _ "x" (.data [1]) [5] rfl,
   C2_write_spec.2.2.2.1 _ "a" ["b"] [5] .timid (by simp) rfl,
   C2_write_spec.2.2.2.2 _ [5] .timid rfl⟩

/-- C3, counterexample: on the tree `a ↦ data [1], b ↦ data [2]`, the
mutating operation `move` called with `Placid` mode and the occupied
destination `b` succeeds but does not leave the tree deeply equal to its
pre-call state: the source entry `a` is removed. -/
theorem C3_placid_counterexample :
    moveAt [("a", Entry.data [1]), ("b", Entry.data [2])] ["a"] ["b"] Mode.placid
      = .ok [("b", Entry.data [2])]
  ∧ dirEq [("b", Entry.data [2])] [("a", Entry.data [1]), ("b", Entry.data [2])] = false :=
  ⟨rfl, rfl⟩

/-- C3, amended: `write`, `mkdir` and `copy` called with `Placid` mode on
an occupied destination succeed and return the tree unchanged (hence
deeply equal to the pre-call state); `remove` takes no mode argument; and
`move` with `Placid` mode on an occupied destination leaves the
destination untouched but still removes the source, i.e. it returns
exactly `remove(src)` of the pre-call tree. -/
theorem C3_placid_amended :
    (∀ (root : Dir) (comps : List String) (e0 : Entry) (bytes : List Nat),
        comps ≠ [] → resolveEntry root comps = .ok (some e0) →
        writeAt root comps bytes .placid = .ok root)
  ∧ (∀ (root : Dir) (comps : List String) (e0 : Entry),
        comps ≠ [] → resolveEntry root comps = .ok (some e0) →
        mkdirAt root comps .placid = .ok root)
  ∧ (∀ (root : Dir) (src dst : List String) (es ed : Entry),
        resolveEntry root src = .ok (some es) →
        dst ≠ [] → resolveEntry root dst = .ok (some ed) →
        copyAt root src dst .placid = .ok root)
  ∧ (∀ (root : Dir) (src dst : List String) (es ed : Entry),
        resolveEntry root src = .ok (some es) →
        dst ≠ [] → resolveEntry root dst = .ok (some ed) →
        moveAt root src dst .placid = removeAt root src) := by
  have hcopy : ∀ (root : Dir) (src dst : List String) (es ed : Entry),
      resolveEntry root src = .ok (some es) →
      dst ≠ [] → resolveEntry root dst = .ok (some ed) →
      copyAt root src dst .placid = .ok root := by
    intro root src dst es ed hs hne hd
    simp [copyAt, hs, placid_placeAt_occupied dst root ed es hne hd]
  refine ⟨fun root comps e0 bytes hne h =>
        placid_placeAt_occupied comps root e0 _ hne h,
      fun root comps e0 hne h =>
        placid_placeAt_occupied comps root e0 _ hne h,
      hcopy,
      fun root src dst es ed hs hne hd => ?_⟩
  simp [moveAt, hcopy root src dst es ed hs hne hd]

/-- Witness for C3's amended claim: the four cases evaluated on the
concrete tree `a ↦ data [1], b ↦ data [2]` with occupied destination
`b` and source `a`. -/
theorem C3_placid_amended_witness :
    (writeAt [("a", .data [1]), ("b", .data [2])] ["b"] [9] .placid
      = .ok [("a", .data [1]), ("b", .data [2])])
  ∧ (mkdirAt [("a", .data [1]), ("b", .data [2])] ["b"] .placid
      = .ok [("a", .data [1]), ("b", .data [2])])
  ∧ (copyAt [("a", .data [1]), ("b", .data [2])] ["a"] ["b"] .placid
      = .ok [("a", .data [1]), ("b", .data [2])])
  ∧ (moveAt [("a", .data [1]), ("b", .data [2])] ["a"] ["b"] .placid
      = removeAt [("a", .data [1]), ("b", .data [2])] ["a"]) :=
  ⟨C3_placid_amended.1 _ ["b"] (.data [2]) [9] (by simp) rfl,
   C3_placid_amended.2.1 _ ["b"] (.data [2]) (by simp) rfl,
   C3_placid_amended.2.2.1 _ ["a"] ["b"] (.data [1]) (.data [2]) rfl (by simp) rfl,
   C3_placid_amended.2.2.2 _ ["a"] ["b"] (.data [1]) (.data [2]) rfl (by simp) rfl⟩

/-- C8: root protection. `remove("/")` fails with `CannotRemoveRoot`;
overwriting `"/"` via `write` or `mkdir` fails for every mode; a `move`
with destination `"/"` fails for every mode and source; a `move` with
source `"/"` fails for every mode and destination. Each failing call
returns an error and no new filesystem state, so the tree is not
modified. -/
theorem C8_root_protection :
    (∀ (fs : MemoryFs), fs.removeSync (.str "/") = .error .cannotRemoveRoot)
  ∧ (∀ (fs : MemoryFs) (bytes : List Nat) (mode : Mode),
        fs.writeSync (.str "/") bytes mode = .error .cannotOperateOnRoot)
  ∧ (∀ (fs : MemoryFs) (mode : Mode),
        fs.mkdirSync (.str "/") mode = .error .cannotOperateOnRoot)
  ∧ (∀ (fs : MemoryFs) (src : Pathish) (mode : Mode),
        ∃ e, fs.moveSync src (.str "/") mode = .error e)
  ∧ (∀ (fs : MemoryFs) (dst : Pathish) (mode : Mode),
        ∃ e, fs.moveSync (.str "/") dst mode = .error e) := by
  refine ⟨fun fs => rfl, fun fs bytes mode => rfl, fun fs mode => rfl,
      fun fs src mode => ?_, fun fs dst mode => ?_⟩
  · have hroot : fs.target (.str "/") = .ok (.absolute []) := rfl
    cases hs : fs.target src with
    | error e =>
      exact ⟨e, by simp [MemoryFs.moveSync, hs, exceptBind_error]⟩
    | ok s =>
      obtain ⟨e, he⟩ := moveAt_dst_root fs.root s.components mode
      refine ⟨e, ?_⟩
      simp only [MemoryFs.moveSync, hs, hroot, exceptBind_ok]
      rw [show (Path.absolute ([] : List String)).components = ([] : List String) from rfl]
      rw [he]
      rfl
  · have hroot : fs.target (.str "/") = .ok (.absolute []) := rfl
    cases hd : fs.target dst with
    | error e =>
      exact ⟨e, by simp [MemoryFs.moveSync, hd, hroot, exceptBind_error, exceptBind_ok]⟩
    | ok d =>
      obtain ⟨e, he⟩ := moveAt_src_root fs.root d.components mode
      refine ⟨e, ?_⟩
      simp only [MemoryFs.moveSync, hd, hroot, exceptBind_ok]
      rw [show (Path.absolute ([] : List String)).components = ([] : List String) from rfl]
      rw [he]
      rfl

/-- C10: every `Path`-accepting method converts a string argument via
`fromPathish`, which runs the full parser, so an unparseable string makes
the method fail with the parse error instead of returning a value; in
particular `p.equals("")` fails with `EmptyPathString` instead of
returning `false`. -/
theorem C10_pathish_parse_errors :
    (∀ (p : Path) (s : String) (e : FsError), parsePath s = .error e →
        p.equals (.str s) = .error e)
  ∧ (∀ (p : Path) (s : String) (e : FsError), parsePath s = .error e →
        p.prefixes (.str s) = .error e)
  ∧ (∀ (p : Path) (s : String) (e : FsError), parsePath s = .error e →
        p.concat (.str s) = .error e)
  ∧ (∀ (fs : MemoryFs) (s : String) (e : FsError), parsePath s = .error e →
        fs.cd (.str s) = .error e)
  ∧ (∀ (p : Path), p.equals (.str "") = .error .emptyPathString) := by
  refine ⟨fun p s e h => ?_, fun p s e h => ?_, fun p s e h => ?_,
      fun fs s e h => ?_, fun p => ?_⟩
  · simp [Path.equals, Path.fromPathish, h, exceptBind_error]
  · simp [Path.prefixes, Path.fromPathish, h, exceptBind_error]
  · simp [Path.concat, Path.fromPathish, h, exceptBind_error]
  · simp [MemoryFs.cd, MemoryFs.target, Path.fromPathish, h, exceptBind_error]
  · rfl

/-- Witness for C10: the empty string against the absolute root and a
one-directory filesystem. -/
theorem C10_pathish_parse_errors_witness :
    (Path.equals (.absolute []) (.str "") = .error .emptyPathString)
  ∧ (Path.prefixes (.absolute []) (.str "") = .error .emptyPathString)
  ∧ (Path.concat (.absolute []) (.str "") = .error .emptyPathString)
  ∧ (MemoryFs.cd ⟨[("a", .dir [])], .absolute []⟩ (.str "") = .error .emptyPathString) :=
  ⟨C10_pathish_parse_errors.1 _ "" _ rfl,
   C10_pathish_parse_errors.2.1 _ "" _ rfl,
   C10_pathish_parse_errors.2.2.1 _ "" _ rfl,
   C10_pathish_parse_errors.2.2.2.1 _ "" _ rfl⟩

/-- C5: `Path.concat` fails when the appended path is absolute; each
leading `..` step of the appended path pops a trailing real component of
the accumulated result when one exists and increments the accumulated
relativity when none remain; an absolute base whose final accumulated
relativity is above `-1` (that is, more `..` steps than components — a
final-state check) fails with `RootOverflowOnConcat`, else the remaining
components are appended. In particular
`Path.absolute(["foo","bar"]).concat("../baz") = Path.absolute(["foo","baz"])`
and `Path.absolute([]).concat("..")` fails. -/
theorem C5_concat_spec :
    (∀ (a : Path) (k : List String), a.concatPath (.absolute k) = .error .absoluteAppend)
  ∧ (∀ (l : List String) (r : Int), concatSteps l r 0 = (l, r))
  ∧ (∀ (l : List String) (r : Int) (n : Nat), l ≠ [] →
        concatSteps l r (n + 1) = concatSteps l.dropLast r n)
  ∧ (∀ (r : Int) (n : Nat), concatSteps [] r (n + 1) = concatSteps [] (r + 1) n)
  ∧ (∀ (l k : List String) (m : Nat), l.length < m →
        Path.concatPath (.absolute l) (.relative k m) = .error .rootOverflowOnConcat)
  ∧ (∀ (l k : List String) (m : Nat), m ≤ l.length →
        Path.concatPath (.absolute l) (.relative k m)
          = .ok (.absolute (l.take (l.length - m) ++ k)))
  ∧ Path.concat (.absolute ["foo", "bar"]) (.str "../baz")
      = .ok (.absolute ["foo", "baz"])
  ∧ Path.concat (.absolute []) (.str "..") = .error .rootOverflowOnConcat :=
  ⟨concatPath_absolute_other, concatSteps_zero, concatSteps_cons_pos,
   concatSteps_nil_succ, concatPath_abs_rel_err, concatPath_abs_rel_ok, rfl, rfl⟩

/-- Witness for C5: the hypotheses discharged on concrete inputs. -/
theorem C5_concat_spec_witness :
    (concatSteps ["a"] 0 1 = concatSteps [] 0 0)
  ∧ (Path.concatPath (.absolute []) (.relative [] 1) = .error .rootOverflowOnConcat)
  ∧ (Path.concatPath (.absolute ["a"]) (.relative ["b"] 1) = .ok (.absolute ["b"])) :=
  ⟨by
      have h := C5_concat_spec.2.2.1 ["a"] 0 0 (by simp)
      simpa using h,
   C5_concat_spec.2.2.2.2.1 [] [] 1 (by decide),
   by
      have h := C5_concat_spec.2.2.2.2.2.1 ["a"] ["b"] 1 (by decide)
      simpa using h⟩

/-- C6: concat associativity where defined — if `a.concat(b)` and
`b.concat(c)` both succeed, then `(a.concat(b)).concat(c)` and
`a.concat(b.concat(c))` agree (in particular, one root-overflows exactly
when the other does, and on success the resulting paths are equal). -/
theorem C6_concat_assoc (a b c ab bc : Path)
    (h1 : a.concatPath b = .ok ab) (h2 : b.concatPath c = .ok bc) :
    ab.concatPath c = a.concatPath bc := by
  cases b with
  | absolute kb => rw [concatPath_absolute_other] at h1; cases h1
  | relative kb mb =>
    cases c with
    | absolute kc => rw [concatPath_absolute_other] at h2; cases h2
    | relative kc mc =>
      rw [concatPath_rel_rel] at h2
      have hbc := (Except.ok.inj h2).symm
      cases a with
      | relative ka ma =>
        rw [concatPath_rel_rel] at h1
        have hab := (Except.ok.inj h1).symm
        subst hab hbc
        rw [concatPath_rel_rel, concatPath_rel_rel]
        have hTlen : (ka.take (ka.length - mb)).length = ka.length - mb := by
          rw [List.length_take]; omega
        have hsteps : ma + (mb - ka.length)
              + (mc - (ka.take (ka.length - mb) ++ kb).length)
            = ma + (mb + (mc - kb.length) - ka.length) := by
          rw [List.length_append, hTlen]
          omega
        rw [concat_comps_assoc, hsteps]
      | absolute ka =>
        by_cases hm : mb ≤ ka.length
        · rw [concatPath_abs_rel_ok _ _ _ hm] at h1
          have hab := (Except.ok.inj h1).symm
          subst hab hbc
          have hTlen : (ka.take (ka.length - mb)).length = ka.length - mb := by
            rw [List.length_take]; omega
          by_cases hc2 : mc ≤ (ka.take (ka.length - mb) ++ kb).length
          · have hc3 : mb + (mc - kb.length) ≤ ka.length := by
              rw [List.length_append, hTlen] at hc2
              omega
            rw [concatPath_abs_rel_ok _ _ _ hc2, concatPath_abs_rel_ok _ _ _ hc3,
              concat_comps_assoc]
          · have hc3 : ka.length < mb + (mc - kb.length) := by
              rw [List.length_append, hTlen] at hc2
              omega
            rw [concatPath_abs_rel_err _ _ _ (by omega), concatPath_abs_rel_err _ _ _ hc3]
        · rw [concatPath_abs_rel_err _ _ _ (by omega)] at h1
          cases h1

/-- Witness for C6: concrete paths with both intermediate concats
defined. -/
theorem C6_concat_assoc_witness :
    Path.concatPath (.absolute []) (.relative ["y"] 0)
      = Path.concatPath (.absolute ["x"]) (.relative ["y"] 1) :=
  C6_concat_assoc (.absolute ["x"]) (.relative [] 1) (.relative ["y"] 0)
    (.absolute []) (.relative ["y"] 1) rfl rfl

/-- C7: `cd` computes `target = path` if the path is absolute and
`workingPath.concat(path)` otherwise, resolves the target without
creating parent directories and must land on a directory; on success the
working path becomes exactly the target (and the root is untouched); on
any failure — parse error, concat error, `NoSuchFile` for the nothing
result or a missing intermediate, `ExpectedDirectoryGotData` — `cd`
returns the error and produces no new state, so the working path is
unchanged. -/
theorem C7_cd_spec :
    (∀ (fs : MemoryFs) (path : Pathish) (p : Path),
        Path.fromPathish path = .ok p →
        fs.target path = (if p.isAbsolute then .ok p else fs.workingDirectory.concatPath p))
  ∧ (∀ (fs : MemoryFs) (path : Pathish) (e : FsError),
        fs.target path = .error e → fs.cd path = .error e)
  ∧ (∀ (fs : MemoryFs) (path : Pathish) (t : Path) (d d2 : Dir),
        fs.target path = .ok t →
        resolveComps fs.root t.components false = .ok (.dirRes d, d2) →
        fs.cd path = .ok ⟨fs.root, t⟩)
  ∧ (∀ (fs : MemoryFs) (path : Pathish) (t : Path) (d2 : Dir),
        fs.target path = .ok t →
        resolveComps fs.root t.components false = .ok (.nothingRes, d2) →
        fs.cd path = .error .noSuchFile)
  ∧ (∀ (fs : MemoryFs) (path : Pathish) (t : Path) (bs : List Nat) (d2 : Dir),
        fs.target path = .ok t →
        resolveComps fs.root t.components false = .ok (.dataRes bs, d2) →
        fs.cd path = .error .expectedDirectoryGotData)
  ∧ (∀ (fs : MemoryFs) (path : Pathish) (t : Path) (e : FsError),
        fs.target path = .ok t →
        resolveComps fs.root t.components false = .error e →
        fs.cd path = .error e)
  ∧ (∀ (fs : MemoryFs) (path : Pathish) (fs2 : MemoryFs),
        fs.cd path = .ok fs2 →
        fs2.root = fs.root ∧ fs.target path = .ok fs2.workingDirectory) := by
  refine ⟨fun fs path p h => ?_, fun fs path e h => ?_,
      fun fs path t d d2 ht hres => ?_, fun fs path t d2 ht hres => ?_,
      fun fs path t bs d2 ht hres => ?_, fun fs path t e ht hres => ?_,
      fun fs path fs2 h => ?_⟩
  · simp [MemoryFs.target, h, exceptBind_ok, exceptPure]
  · simp [MemoryFs.cd, h, exceptBind_error]
  · simp [MemoryFs.cd, ht, exceptBind_ok, hres]
  · simp [MemoryFs.cd, ht, exceptBind_ok, hres]
  · simp [MemoryFs.cd, ht, exceptBind_ok, hres]
  · simp [MemoryFs.cd, ht, exceptBind_ok, hres]
  · cases ht : fs.target path with
    | error e => simp [MemoryFs.cd, ht, exceptBind_error] at h
    | ok t =>
      cases hres : resolveComps fs.root t.components false with
      | error e => simp [MemoryFs.cd, ht, exceptBind_ok, hres] at h
      | ok rs =>
        obtain ⟨res, d2⟩ := rs
        cases res with
        | dirRes d =>
          simp only [MemoryFs.cd, ht, exceptBind_ok, hres] at h
          have h2 := Except.ok.inj h
          subst h2
          exact ⟨rfl, rfl⟩
        | dataRes bs => simp [MemoryFs.cd, ht, exceptBind_ok, hres] at h
        | nothingRes => simp [MemoryFs.cd, ht, exceptBind_ok, hres] at h

/-- Witness for C7: the cases evaluated on concrete filesystems. -/
theorem C7_cd_spec_witness :
    (MemoryFs.target ⟨[("a", .dir [])], .absolute []⟩ (.str "a")
      = (if (Path.relative ["a"] 0).isAbsolute then .ok (.relative ["a"] 0)
         else (Path.absolute []).concatPath (.relative ["a"] 0)))
  ∧ (MemoryFs.cd ⟨[("a", .dir [])], .absolute []⟩ (.str "") = .error .emptyPathString)
  ∧ (MemoryFs.cd ⟨[("a", .dir [])], .absolute []⟩ (.str "a")
      = .ok ⟨[("a", .dir [])], .absolute ["a"]⟩)
  ∧ (MemoryFs.cd ⟨[("a", .dir [])], .absolute []⟩ (.str "b") = .error .noSuchFile)
  ∧ (MemoryFs.cd ⟨[("f", .data [1])], .absolute []⟩ (.str "f")
      = .error .expectedDirectoryGotData)
  ∧ (MemoryFs.cd ⟨[("a", .dir [])], .absolute []⟩ (.str "x/y") = .error .noSuchFile)
  ∧ ((⟨[("a", .dir [])], .absolute ["a"]⟩ : MemoryFs).root = [("a", .dir [])]
      ∧ MemoryFs.target ⟨[("a", .dir [])], .absolute []⟩ (.str "a")
          = .ok (MemoryFs.workingDirectory ⟨[("a", .dir [])], .absolute ["a"]⟩)) :=
  ⟨C7_cd_spec.1 _ (.str "a") (.relative ["a"] 0) rfl,
   C7_cd_spec.2.1 _ (.str "") .emptyPathString rfl,
   C7_cd_spec.2.2.1 _ (.str "a") (.absolute ["a"]) [] [("a", .dir [])] rfl rfl,
   C7_cd_spec.2.2.2.1 _ (.str "b") (.absolute ["b"]) [("a", .dir [])] rfl rfl,
   C7_cd_spec.2.2.2.2.1 _ (.str "f") (.absolute ["f"]) [1] [("f", .data [1])] rfl rfl,
   C7_cd_spec.2.2.2.2.2.1 _ (.str "x/y") (.absolute ["x", "y"]) .noSuchFile rfl rfl,
   C7_cd_spec.2.2.2.2.2.2 ⟨[("a", .dir [])], .absolute []⟩ (.str "a")
     ⟨[("a", .dir [])], .absolute ["a"]⟩ rfl⟩

theorem startsWithSlash_true_data {s : String} (h : startsWithSlash s = true) :
    ∃ cs, s.data = '/' :: cs := by
  cases hd : s.data with
  | nil => rw [startsWithSlash, hd] at h; cases h
  | cons c cs =>
    rw [startsWithSlash, hd] at h
    simp at h
    exact ⟨cs, by rw [h]⟩

theorem splitSlashAux_slash (rest : List Char) (acc : List Char) :
    splitSlashAux ('/' :: rest) acc = acc.reverse.asString :: splitSlashAux rest [] := by
  simp [splitSlashAux]

theorem splitSlashAux_double :
    ∀ (z w : List Char) (acc : List Char),
      ∃ p0 rest, splitSlashAux (z ++ '/' :: '/' :: w) acc = p0 :: rest ∧ "" ∈ rest := by
  intro z
  induction z with
  | nil =>
    intro w acc
    refine ⟨acc.reverse.asString, "" :: splitSlashAux w [], ?_, by simp⟩
    rw [List.nil_append, splitSlashAux_slash, splitSlashAux_slash]
    rfl
  | cons c z2 ih =>
    intro w acc
    by_cases hc : c = '/'
    · subst hc
      obtain ⟨p0, rest, hsp, hmem⟩ := ih w []
      exact ⟨acc.reverse.asString, p0 :: rest,
        by rw [List.cons_append, splitSlashAux_slash, hsp], by simp [hmem]⟩
    · obtain ⟨p0, rest, hsp, hmem⟩ := ih w (c :: acc)
      refine ⟨p0, rest, ?_, hmem⟩
      rw [List.cons_append, show splitSlashAux (c :: (z2 ++ '/' :: '/' :: w)) acc
          = splitSlashAux (z2 ++ '/' :: '/' :: w) (c :: acc) by simp [splitSlashAux, hc]]
      exact hsp

theorem parseParts_false_empty_mem :
    ∀ (parts : List String) (steps : Nat) (comps : List String) (f : Bool),
      "" ∈ parts → ∃ e, parseParts false parts steps comps f = .error e := by
  intro parts
  induction parts with
  | nil => intro steps comps f h; simp at h
  | cons part rest ih =>
    intro steps comps f h
    by_cases hpe : part = ""
    · subst hpe
      exact ⟨.emptyComponent, by simp [parseParts]⟩
    · have hmem : "" ∈ rest := by
        rcases List.mem_cons.mp h with h1 | h2
        · exact absurd h1.symm hpe
        · exact h2
      by_cases hp1 : part = "."
      · subst hp1
        obtain ⟨e, he⟩ := ih steps comps f hmem
        exact ⟨e, by simp [parseParts, he]⟩
      · by_cases hp2 : part = ".."
        · subst hp2
          by_cases hlen : comps.length = 0
          · obtain ⟨e, he⟩ := ih (steps + 1) comps f hmem
            exact ⟨e, by simp [parseParts, hlen, he]⟩
          · obtain ⟨e, he⟩ := ih steps comps.dropLast f hmem
            exact ⟨e, by simp [parseParts, hlen, he]⟩
        · obtain ⟨e, he⟩ := ih steps (comps ++ [part]) f hmem
          exact ⟨e, by simp [parseParts, hpe, hp1, hp2, he]⟩

theorem parseParts_true_flagfalse_empty_mem :
    ∀ (parts : List String) (steps : Nat) (comps : List String),
      "" ∈ parts → ∃ e, parseParts true parts steps comps false = .error e := by
  intro parts
  induction parts with
  | nil => intro steps comps h; simp at h
  | cons part rest ih =>
    intro steps comps h
    by_cases hpe : part = ""
    · subst hpe
      exact ⟨.emptyComponent, by simp [parseParts]⟩
    · have hmem : "" ∈ rest := by
        rcases List.mem_cons.mp h with h1 | h2
        · exact absurd h1.symm hpe
        · exact h2
      by_cases hp1 : part = "."
      · subst hp1
        obtain ⟨e, he⟩ := ih steps comps hmem
        exact ⟨e, by simp [parseParts, he]⟩
      · by_cases hp2 : part = ".."
        · subst hp2
          by_cases hlen : comps.length = 0
          · exact ⟨.rootOverflow, by simp [parseParts, hlen]⟩
          · obtain ⟨e, he⟩ := ih steps comps.dropLast hmem
            exact ⟨e, by simp [parseParts, hlen, he]⟩
        · obtain ⟨e, he⟩ := ih steps (comps ++ [part]) hmem
          exact ⟨e, by simp [parseParts, hpe, hp1, hp2, he]⟩

theorem parsePath_double_slash (x y : String) :
    ∃ e, parsePath (x ++ "//" ++ y) = .error e := by
  have hdata : (x ++ "//" ++ y).data = x.data ++ '/' :: '/' :: y.data := by
    simp [String.data_append]
  have hlen : ¬((x ++ "//" ++ y).length = 0) := by
    show ¬((x ++ "//" ++ y).data.length = 0)
    rw [hdata]
    simp
  have hslash : ¬(x ++ "//" ++ y = "/") := by
    intro hcontra
    have h2 := congrArg String.data hcontra
    rw [hdata] at h2
    have h3 := congrArg List.length h2
    simp at h3
    omega
  obtain ⟨p0, rest, hsplit, hmem⟩ := splitSlashAux_double x.data y.data []
  cases habs : startsWithSlash (x ++ "//" ++ y) with
  | false =>
    obtain ⟨e, he⟩ := parseParts_false_empty_mem (p0 :: rest) 0 [] true
      (List.mem_cons_of_mem _ hmem)
    refine ⟨e, ?_⟩
    rw [parsePath, if_neg hlen, if_neg hslash]
    simp only [habs, splitSlash, hdata, hsplit, he]
  | true =>
    obtain ⟨cs, hcs⟩ := startsWithSlash_true_data habs
    have hsplit2 : splitSlashAux ((x ++ "//" ++ y)).data [] = "" :: splitSlashAux cs [] := by
      rw [hcs, splitSlashAux_slash]
      rfl
    have hp0 : p0 :: rest = "" :: splitSlashAux cs [] := by
      rw [← hsplit2, hdata]
      exact hsplit.symm
    have hrest : rest = splitSlashAux cs [] := (List.cons.inj hp0).2
    obtain ⟨e, he⟩ := parseParts_true_flagfalse_empty_mem (splitSlashAux cs []) 0 []
      (hrest ▸ hmem)
    refine ⟨e, ?_⟩
    rw [parsePath, if_neg hlen, if_neg hslash]
    have hstep : parseParts true ("" :: splitSlashAux cs []) 0 [] true
        = parseParts true (splitSlashAux cs []) 0 [] false := by
      simp [parseParts]
    simp only [habs, splitSlash, hsplit2, hstep, he]

/-- C9: `parsePath` failure cases — the empty string fails with
`EmptyPathString`; every string containing successive slashes (an empty
intermediate segment, never the single leading `/` of an absolute path)
fails; a `..` segment of an absolute path with no buffered real
components to pop fails with `RootOverflow`; and the bare string `"/"`
parses to the absolute root with an empty component list. -/
theorem C9_parse_failures :
    (parsePath "" = .error .emptyPathString)
  ∧ (∀ (x y : String), ∃ e, parsePath (x ++ "//" ++ y) = .error e)
  ∧ (∀ (rest : List String) (steps : Nat) (f : Bool),
        parseParts true (".." :: rest) steps [] f = .error .rootOverflow)
  ∧ (parsePath "/foo/../.." = .error .rootOverflow)
  ∧ (parsePath "/" = .ok (.absolute [])) :=
  ⟨rfl, parsePath_double_slash,
   fun rest steps f => by simp [parseParts],
   rfl, rfl⟩

/-! ### Round-trip infrastructure -/

/-- The character block contributed by `n` further `..` steps in
`Path.toString`. -/
def dotsData (n : Nat) : List Char :=
  (List.replicate n ['/', '.', '.']).flatten

theorem dotsData_succ (n : Nat) : dotsData (n + 1) = '/' :: '.' :: '.' :: dotsData n := by
  simp [dotsData, List.replicate_succ]

theorem eq_empty_of_data_eq_nil {c : String} (h : c.data = []) : c = "" :=
  Eq.trans (Eq.trans rfl (congrArg List.asString h)) rfl

theorem appendDotDots_data : ∀ (n : Nat) (r : String),
    (appendDotDots r n).data = r.data ++ dotsData n := by
  intro n
  induction n with
  | zero => intro r; simp [appendDotDots, dotsData]
  | succ n ih =>
    intro r
    rw [show appendDotDots r (n + 1) = appendDotDots (r ++ "/..") n from rfl, ih]
    simp [String.data_append, dotsData_succ]

theorem foldl_render_data : ∀ (cs : List String) (r : String),
    (cs.foldl (fun acc x => acc ++ "/" ++ x) r).data
      = r.data ++ (cs.map (fun x => '/' :: x.data)).flatten := by
  intro cs
  induction cs with
  | nil => intro r; simp
  | cons c cs ih =>
    intro r
    rw [List.foldl_cons, ih]
    simp [String.data_append]

theorem splitSlashAux_no_slash :
    ∀ (xs : List Char) (acc : List Char), '/' ∉ xs →
      splitSlashAux xs acc = [(acc.reverse ++ xs).asString] := by
  intro xs
  induction xs with
  | nil => intro acc _; simp [splitSlashAux]
  | cons x xs ih =>
    intro acc h
    have hx : ¬(x = '/') := fun hc => h (hc ▸ List.mem_cons_self x xs)
    have hxs : '/' ∉ xs := fun hc => h (List.mem_cons_of_mem x hc)
    rw [show splitSlashAux (x :: xs) acc = splitSlashAux xs (x :: acc) by
      simp [splitSlashAux, hx], ih (x :: acc) hxs]
    simp

theorem splitSlashAux_mid :
    ∀ (xs : List Char) (rest : List Char) (acc : List Char), '/' ∉ xs →
      splitSlashAux (xs ++ '/' :: rest) acc
        = (acc.reverse ++ xs).asString :: splitSlashAux rest [] := by
  intro xs
  induction xs with
  | nil => intro rest acc _; rw [List.nil_append, splitSlashAux_slash]; simp
  | cons x xs ih =>
    intro rest acc h
    have hx : ¬(x = '/') := fun hc => h (hc ▸ List.mem_cons_self x xs)
    have hxs : '/' ∉ xs := fun hc => h (List.mem_cons_of_mem x hc)
    rw [List.cons_append, show splitSlashAux (x :: (xs ++ '/' :: rest)) acc
        = splitSlashAux (xs ++ '/' :: rest) (x :: acc) by simp [splitSlashAux, hx],
      ih rest (x :: acc) hxs]
    simp

theorem splitSlashAux_comps :
    ∀ (cs : List String) (c : String), '/' ∉ c.data → (∀ x ∈ cs, '/' ∉ x.data) →
      splitSlashAux (c.data ++ (cs.map (fun x => '/' :: x.data)).flatten) [] = c :: cs := by
  intro cs
  induction cs with
  | nil =>
    intro c hc _
    rw [List.map_nil, List.flatten_nil, List.append_nil, splitSlashAux_no_slash c.data [] hc]
    rfl
  | cons c2 cs2 ih =>
    intro c hc hall
    rw [List.map_cons, List.flatten_cons, List.cons_append,
      splitSlashAux_mid c.data _ [] hc]
    rw [ih c2 (hall c2 (List.mem_cons_self c2 cs2))
      (fun x hx => hall x (List.mem_cons_of_mem c2 hx))]
    rfl

theorem splitSlashAux_dots_end :
    ∀ (n : Nat), splitSlashAux ('.' :: '.' :: dotsData n) [] = List.replicate (n + 1) ".." := by
  intro n
  induction n with
  | zero =>
    rw [show dotsData 0 = [] from rfl,
      splitSlashAux_no_slash ['.', '.'] [] (by decide)]
    rfl
  | succ n ih =>
    rw [dotsData_succ,
      show ('.' :: '.' :: '/' :: '.' :: '.' :: dotsData n)
        = ['.', '.'] ++ '/' :: ('.' :: '.' :: dotsData n) from rfl,
      splitSlashAux_mid ['.', '.'] _ [] (by decide), ih]
    rw [show List.replicate (n + 1 + 1) ".." = ".." :: List.replicate (n + 1) ".." from
      List.replicate_succ ".." (n + 1)]
    rfl

theorem splitSlashAux_dots_mid :
    ∀ (n : Nat) (rest : List Char),
      splitSlashAux ('.' :: '.' :: dotsData n ++ '/' :: rest) []
        = List.replicate (n + 1) ".." ++ splitSlashAux rest [] := by
  intro n
  induction n with
  | zero =>
    intro rest
    rw [show dotsData 0 = [] from rfl,
      show (('.' :: '.' :: ([] : List Char)) ++ '/' :: rest)
        = ['.', '.'] ++ '/' :: rest by simp,
      splitSlashAux_mid ['.', '.'] _ [] (by decide)]
    rfl
  | succ n ih =>
    intro rest
    rw [dotsData_succ,
      show (('.' :: '.' :: ('/' :: '.' :: '.' :: dotsData n)) ++ '/' :: rest)
        = ['.', '.'] ++ '/' :: ('.' :: '.' :: dotsData n ++ '/' :: rest) by simp,
      splitSlashAux_mid ['.', '.'] _ [] (by decide), ih rest]
    rw [show List.replicate (n + 1 + 1) ".." = ".." :: List.replicate (n + 1) ".." from
      List.replicate_succ ".." (n + 1)]
    rfl

theorem parseParts_push :
    ∀ (parts : List String) (isAbs : Bool) (steps : Nat) (comps : List String) (f : Bool),
      (∀ x ∈ parts, x ≠ "" ∧ x ≠ "." ∧ x ≠ "..") →
      parseParts isAbs parts steps comps f = .ok (steps, comps ++ parts) := by
  intro parts
  induction parts with
  | nil => intro isAbs steps comps f _; simp [parseParts]
  | cons p ps ih =>
    intro isAbs steps comps f h
    obtain ⟨h1, h2, h3⟩ := h p (List.mem_cons_self p ps)
    rw [show parseParts isAbs (p :: ps) steps comps f
        = parseParts isAbs ps steps (comps ++ [p]) f by simp [parseParts, h1, h2, h3],
      ih isAbs steps (comps ++ [p]) f (fun x hx => h x (List.mem_cons_of_mem p hx))]
    simp

theorem parseParts_dots :
    ∀ (k : Nat) (parts : List String) (steps : Nat) (f : Bool),
      parseParts false (List.replicate k ".." ++ parts) steps [] f
        = parseParts false parts (steps + k) [] f := by
  intro k
  induction k with
  | zero => intro parts steps f; simp
  | succ k ih =>
    intro parts steps f
    rw [List.replicate_succ, List.cons_append,
      show parseParts false (".." :: (List.replicate k ".." ++ parts)) steps [] f
        = parseParts false (List.replicate k ".." ++ parts) (steps + 1) [] f by
        simp [parseParts],
      ih parts (steps + 1) f,
      show steps + 1 + k = steps + (k + 1) by omega]

theorem isComponent_spec {c : String} (h : Path.isComponent c = true) :
    '/' ∉ c.data ∧ c ≠ "" ∧ c ≠ "." ∧ c ≠ ".." := by
  simp only [Path.isComponent, Bool.and_eq_true, Bool.not_eq_true'] at h
  obtain ⟨⟨⟨h1, h2⟩, h3⟩, h4⟩ := h
  exact ⟨by simpa using h1, by simpa using h2, by simpa using h3, by simpa using h4⟩

theorem toString_absolute_cons_data (c : String) (cs : List String) :
    (Path.toString (.absolute (c :: cs))).data
      = '/' :: (c.data ++ ((cs.map (fun x => '/' :: x.data)).flatten)) := by
  rw [show Path.toString (.absolute (c :: cs))
      = (c :: cs).foldl (fun r x => r ++ "/" ++ x) "" by simp [Path.toString]]
  rw [foldl_render_data]
  simp [String.data_append]

theorem toString_relative_cons_zero_data (c : String) (cs : List String) :
    (Path.toString (.relative (c :: cs) 0)).data
      = c.data ++ ((cs.map (fun x => '/' :: x.data)).flatten) := by
  rw [show Path.toString (.relative (c :: cs) 0)
      = cs.foldl (fun acc x => acc ++ "/" ++ x) ("" ++ c) by simp [Path.toString]]
  rw [foldl_render_data]
  simp [String.data_append]

theorem toString_relative_nil_succ_data (n : Nat) :
    (Path.toString (.relative [] (n + 1))).data = '.' :: '.' :: dotsData n := by
  rw [show Path.toString (.relative [] (n + 1)) = appendDotDots ".." n by
    simp [Path.toString]]
  rw [appendDotDots_data]
  rfl

theorem toString_relative_cons_succ_data (c : String) (cs : List String) (n : Nat) :
    (Path.toString (.relative (c :: cs) (n + 1))).data
      = '.' :: '.' :: dotsData n ++ '/' :: (c.data ++ ((cs.map (fun x => '/' :: x.data)).flatten)) := by
  rw [show Path.toString (.relative (c :: cs) (n + 1))
      = cs.foldl (fun acc x => acc ++ "/" ++ x) ((appendDotDots ".." n ++ "/") ++ c) by
    simp [Path.toString]]
  rw [foldl_render_data]
  simp [String.data_append, appendDotDots_data]

theorem parsePath_expand (s : String) (h0 : ¬(s.length = 0)) (h1 : ¬(s = "/")) :
    parsePath s
      = (match parseParts (startsWithSlash s) (splitSlash s) 0 [] true with
         | .error e => .error e
         | .ok (steps, comps) =>
           .ok (if startsWithSlash s then Path.absolute comps else .relative comps steps)) := by
  unfold parsePath
  rw [if_neg h0, if_neg h1]

theorem length_ne_zero_of_data_cons {s : String} {c : Char} {cs : List Char}
    (h : s.data = c :: cs) : ¬(s.length = 0) := by
  show ¬(s.data.length = 0)
  rw [h]
  simp

theorem ne_slash_of_head_ne {s : String} {c : Char} {cs : List Char}
    (h : s.data = c :: cs) (hc : c ≠ '/') : ¬(s = "/") := by
  intro he
  rw [he] at h
  have h2 : ('/' : Char) :: ([] : List Char) = c :: cs := h
  exact hc (List.cons.inj h2).1.symm

theorem ne_slash_of_tail_ne {s : String} {cs : List Char}
    (h : s.data = '/' :: cs) (hc : cs ≠ []) : ¬(s = "/") := by
  intro he
  rw [he] at h
  have h2 : ('/' : Char) :: ([] : List Char) = '/' :: cs := h
  exact hc (List.cons.inj h2).2.symm

theorem startsWithSlash_of_data {s : String} {c : Char} {cs : List Char}
    (h : s.data = c :: cs) : startsWithSlash s = decide (c = '/') := by
  rw [startsWithSlash, h]

/-- C4: round-trip — for every `Path` (absolute or relative, any
parent-step count, any valid component list), parsing its rendering
returns exactly the same path (same relativity class, same parent-step
count, identical component sequence). -/
theorem C4_roundtrip (p : Path) (h : p.validB = true) :
    parsePath (Path.toString p) = .ok p := by
  cases p with
  | absolute comps =>
    cases comps with
    | nil => rfl
    | cons c cs =>
      have hall : ∀ x ∈ c :: cs, Path.isComponent x = true := by
        simpa [Path.validB, Path.components, List.all_eq_true] using h
      have hcspec := isComponent_spec (hall c (List.mem_cons_self c cs))
      have hdata := toString_absolute_cons_data c cs
      have h0 := length_ne_zero_of_data_cons hdata
      have hcd : c.data ≠ [] := fun hnil => hcspec.2.1 (eq_empty_of_data_eq_nil hnil)
      have htail : c.data ++ ((cs.map (fun x => '/' :: x.data)).flatten) ≠ [] := by
        intro hx
        exact hcd (List.append_eq_nil.mp hx).1
      have h1 := ne_slash_of_tail_ne hdata htail
      have habs : startsWithSlash (Path.toString (.absolute (c :: cs))) = true := by
        rw [startsWithSlash_of_data hdata]
        simp
      have hsplit : splitSlash (Path.toString (.absolute (c :: cs))) = "" :: c :: cs := by
        rw [splitSlash, hdata, splitSlashAux_slash,
          splitSlashAux_comps cs c hcspec.1
            (fun x hx => (isComponent_spec (hall x (List.mem_cons_of_mem c hx))).1)]
        rfl
      rw [parsePath_expand _ h0 h1, habs, hsplit]
      rw [show parseParts true ("" :: c :: cs) 0 [] true
          = parseParts true (c :: cs) 0 [] false by simp [parseParts]]
      rw [parseParts_push (c :: cs) true 0 [] false (fun x hx =>
        ⟨(isComponent_spec (hall x hx)).2.1, (isComponent_spec (hall x hx)).2.2.1,
         (isComponent_spec (hall x hx)).2.2.2⟩)]
      simp
  | relative comps steps =>
    have hall : ∀ x ∈ comps, Path.isComponent x = true := by
      simpa [Path.validB, Path.components, List.all_eq_true] using h
    cases steps with
    | zero =>
      cases comps with
      | nil => rfl
      | cons c cs =>
        have hcspec := isComponent_spec (hall c (List.mem_cons_self c cs))
        have hdataA := toString_relative_cons_zero_data c cs
        have hcd : c.data ≠ [] := fun hnil => hcspec.2.1 (eq_empty_of_data_eq_nil hnil)
        cases hcc : c.data with
        | nil => exact absurd hcc hcd
        | cons ch ct =>
          have hdataB : (Path.toString (.relative (c :: cs) 0)).data
              = ch :: (ct ++ ((cs.map (fun x => '/' :: x.data)).flatten)) := by
            rw [hdataA, hcc, List.cons_append]
          have hch : ch ≠ '/' := by
            intro he
            apply hcspec.1
            rw [hcc, he]
            exact List.mem_cons_self '/' ct
          have h0 := length_ne_zero_of_data_cons hdataB
          have h1 := ne_slash_of_head_ne hdataB hch
          have habs : startsWithSlash (Path.toString (.relative (c :: cs) 0)) = false := by
            rw [startsWithSlash_of_data hdataB]
            simp [hch]
          have hsplit : splitSlash (Path.toString (.relative (c :: cs) 0)) = c :: cs := by
            rw [splitSlash, hdataA,
              splitSlashAux_comps cs c hcspec.1
                (fun x hx => (isComponent_spec (hall x (List.mem_cons_of_mem c hx))).1)]
          rw [parsePath_expand _ h0 h1, habs, hsplit]
          rw [parseParts_push (c :: cs) false 0 [] true (fun x hx =>
            ⟨(isComponent_spec (hall x hx)).2.1, (isComponent_spec (hall x hx)).2.2.1,
             (isComponent_spec (hall x hx)).2.2.2⟩)]
          simp
    | succ n =>
      cases comps with
      | nil =>
        have hdata := toString_relative_nil_succ_data n
        have h0 := length_ne_zero_of_data_cons hdata
        have h1 := ne_slash_of_head_ne hdata (by decide)
        have habs : startsWithSlash (Path.toString (.relative [] (n + 1))) = false := by
          rw [startsWithSlash_of_data hdata]
          simp
        have hsplit : splitSlash (Path.toString (.relative [] (n + 1)))
            = List.replicate (n + 1) ".." := by
          rw [splitSlash, hdata, splitSlashAux_dots_end n]
        rw [parsePath_expand _ h0 h1, habs, hsplit,
          show List.replicate (n + 1) ".." = List.replicate (n + 1) ".." ++ [] by simp,
          parseParts_dots (n + 1) [] 0 true]
        rw [show parseParts false [] (0 + (n + 1)) [] true
            = .ok (0 + (n + 1), []) from rfl]
        simp
      | cons c cs =>
        have hcspec := isComponent_spec (hall c (List.mem_cons_self c cs))
        have hdata := toString_relative_cons_succ_data c cs n
        have h0 := length_ne_zero_of_data_cons hdata
        have h1 := ne_slash_of_head_ne hdata (by decide)
        have habs : startsWithSlash (Path.toString (.relative (c :: cs) (n + 1))) = false := by
          rw [startsWithSlash_of_data hdata]
          simp
        have hsplit : splitSlash (Path.toString (.relative (c :: cs) (n + 1)))
            = List.replicate (n + 1) ".." ++ (c :: cs) := by
          rw [splitSlash, hdata, splitSlashAux_dots_mid n,
            splitSlashAux_comps cs c hcspec.1
              (fun x hx => (isComponent_spec (hall x (List.mem_cons_of_mem c hx))).1)]
        rw [parsePath_expand _ h0 h1, habs, hsplit, parseParts_dots (n + 1) (c :: cs) 0 true]
        rw [parseParts_push (c :: cs) false (0 + (n + 1)) [] true (fun x hx =>
          ⟨(isComponent_spec (hall x hx)).2.1, (isComponent_spec (hall x hx)).2.2.1,
           (isComponent_spec (hall x hx)).2.2.2⟩)]
        simp

/-- Witness for C4: the round-trip evaluated on a concrete valid path. -/
theorem C4_roundtrip_witness :
    parsePath (Path.toString (.relative ["foo", "bar"] 2)) = .ok (.relative ["foo", "bar"] 2) :=
  C4_roundtrip (.relative ["foo", "bar"] 2) (by decide)

end SimpleFs

